import Mathlib

/-!
# Verification of the auto-sub-video-ai job/batch pipeline orchestrator

A shallow embedding of the orchestration layer of the auto-sub-video-ai
repository, together with proofs about it.

The repository ships the TypeScript frontend (`frontend/src/...`); the Python
backend (`backend/`, referenced by the Makefile and Dockerfile) is not part of
the available sources.  Definitions taken from frontend source files cite the
file they embed.  Definitions for backend behaviour that the sources do not
contain are modelled from the specification and are marked
`Modelled from the spec:` in their doc comment.
-/

/-- Job lifecycle status, from `frontend/src/lib/types.ts` line 1:
`export type JobStatus = "QUEUED" | "PROCESSING" | "COMPLETED" | "FAILED" | "CANCELLED"`. -/
inductive JobStatus where
  | QUEUED
  | PROCESSING
  | COMPLETED
  | FAILED
  | CANCELLED
deriving DecidableEq, Repr, Fintype

/-- Terminal-status test, as the frontend computes it
(`frontend/src/app/jobs/page.tsx`:
`["COMPLETED", "FAILED", "CANCELLED"].includes(job.status)`). -/
def JobStatus.isTerminal : JobStatus → Bool
  | .COMPLETED => true
  | .FAILED => true
  | .CANCELLED => true
  | _ => false

/-- Batch aggregate status values; the frontend recognises
`COMPLETED`, `PARTIAL`, `PROCESSING` and `QUEUED` in `BatchStatusIcon`
(batch page source, `Batch.status : string` in `frontend/src/lib/types.ts`). -/
inductive BatchStatus where
  | QUEUED
  | PROCESSING
  | COMPLETED
  | PARTIAL
  | FAILED
deriving DecidableEq, Repr

/-- Modelled from the spec: the Batch Coordinator recomputes the aggregate
status from member statuses (spec section 4.6) — Processing while any member is
Queued or Processing; once every member is terminal, Completed if all members
are Completed, Failed only if all members are Failed, Partial otherwise.  The
backend implementation of the Batch Coordinator is not among the sources. -/
def batchAggregateStatus (ms : List JobStatus) : BatchStatus :=
  if ms.any (fun s => s == .QUEUED || s == .PROCESSING) then .PROCESSING
  else if ms.all (fun s => s == .COMPLETED) then .COMPLETED
  else if ms.all (fun s => s == .FAILED) then .FAILED
  else .PARTIAL

/-- A live progress notification, from `frontend/src/lib/types.ts` lines 108-117
(`JobProgressEvent`): job identity, status at emission, stage name, step index
and total step count, progress percentage, optional ETA, message. -/
structure JobProgressEvent where
  job_id : String
  status : JobStatus
  step : String
  step_number : Nat
  total_steps : Nat
  progress_percent : ℚ
  eta_seconds : Option Nat
  message : String
deriving DecidableEq, Repr

/-- Modelled from the spec: progress percentage is recomputed as
`(completed_steps / total_steps) * 100` (spec 4.1). -/
def progressPercent (completed total : Nat) : ℚ :=
  (completed : ℚ) / (total : ℚ) * 100

/-- Modelled from the spec: the outcome of invoking one black-box stage
function — a typed output or a `StageExecutionError` (spec 6, 7). -/
inductive StageResult where
  | success (out : String)
  | failure (msg : String)

/-- Modelled from the spec: the per-job data the orchestrator needs — lifecycle
status, the ordered configured stage names, the accumulated per-stage outputs
(append-only), and the optional error description (spec 3, Job).  The backend
job model is not among the sources. -/
structure PipelineJob where
  status : JobStatus
  stages : List String
  outputs : List String
  errorMessage : Option String
deriving DecidableEq, Repr

/-- Modelled from the spec: the Job Runner state while driving one run —
status, completed step count, configured total, accumulated outputs, the
1-based indices of the stages invoked so far, error, and the published
progress events (spec 4.4). -/
structure RunnerState where
  status : JobStatus
  stepIndex : Nat
  totalSteps : Nat
  outputs : List String
  executed : List Nat
  errorMessage : Option String
  events : List JobProgressEvent
deriving DecidableEq, Repr

/-- Modelled from the spec: the Job Runner loop (spec 4.4).  For each remaining
stage (1-based index paired with its name), in order: check the
cancellation flag at the boundary — if set, transition to Cancelled without
starting the stage; otherwise publish a stage-starting event and invoke the
stage function; on success append the output, advance the step index and
publish a stage-completed event with recomputed progress; on failure record
the error verbatim, publish a failed event and stop.  `behave i` is the
black-box outcome of stage `i`; `flagAt i` is whether the cancellation flag is
observed set at the boundary before stage `i`. -/
def runLoop (jobId : String) (behave : Nat → StageResult) (flagAt : Nat → Bool) :
    List (Nat × String) → RunnerState → RunnerState
  | [], st => st
  | (i, name) :: rest, st =>
    if st.status = .PROCESSING then
      if flagAt i then
        { st with
            status := .CANCELLED,
            events := st.events ++
              [⟨jobId, .CANCELLED, name, st.stepIndex, st.totalSteps,
                  progressPercent st.stepIndex st.totalSteps, none, "cancelled"⟩] }
      else
        match behave i with
        | .success out =>
            runLoop jobId behave flagAt rest
              { st with
                  stepIndex := st.stepIndex + 1,
                  outputs := st.outputs ++ [out],
                  executed := st.executed ++ [i],
                  events := st.events ++
                    [⟨jobId, .PROCESSING, name, i, st.totalSteps,
                        progressPercent st.stepIndex st.totalSteps, none,
                        "stage starting"⟩,
                      ⟨jobId, .PROCESSING, name, i, st.totalSteps,
                        progressPercent (st.stepIndex + 1) st.totalSteps, none,
                        "stage completed"⟩] }
        | .failure msg =>
            { st with
                status := .FAILED,
                errorMessage := some msg,
                executed := st.executed ++ [i],
                events := st.events ++
                  [⟨jobId, .PROCESSING, name, i, st.totalSteps,
                      progressPercent st.stepIndex st.totalSteps, none,
                      "stage starting"⟩,
                    ⟨jobId, .FAILED, name, i, st.totalSteps,
                      progressPercent st.stepIndex st.totalSteps, none, msg⟩] }
    else st

/-- Modelled from the spec: after the last configured stage succeeds the
Runner transitions to Completed and publishes a terminal event (spec 4.4);
a run that already ended Failed or Cancelled is left as it is. -/
def finishRun (jobId : String) (st : RunnerState) : RunnerState :=
  if st.status = .PROCESSING then
    { st with
        status := .COMPLETED,
        events := st.events ++
          [⟨jobId, .COMPLETED, "", st.stepIndex, st.totalSteps,
              progressPercent st.stepIndex st.totalSteps, none, "completed"⟩] }
  else st

/-- Modelled from the spec: the resume point of a run — the first stage after
the last stage whose output is already accumulated (spec 4.1): the 1-based
stage indices `outputs.length + 1 .. stages.length` paired with their names. -/
def resumeIndexList (j : PipelineJob) : List (Nat × String) :=
  (List.range' (j.outputs.length + 1) (j.stages.length - j.outputs.length)).zip
    (j.stages.drop j.outputs.length)

/-- Modelled from the spec: `run(job) -> TerminalStatus` (spec 4.4): transition
to Processing, execute the configured stages from the resume point in order,
then finish. -/
def runJob (jobId : String) (behave : Nat → StageResult) (flagAt : Nat → Bool)
    (j : PipelineJob) : RunnerState :=
  finishRun jobId
    (runLoop jobId behave flagAt (resumeIndexList j)
      ⟨.PROCESSING, j.outputs.length, j.stages.length, j.outputs, [], none, []⟩)

/-- Modelled from the spec: retrying a Failed (or Cancelled) job clears the
error and resets the status to Queued (spec 4.1); the accumulated outputs are
kept, so the next run resumes after them. -/
def retryJob (j : PipelineJob) : PipelineJob :=
  { j with status := .QUEUED, errorMessage := none }

/-- Progress event streams are well-formed: percentage and step index are
non-decreasing along the published order. -/
def eventsMonotone (evs : List JobProgressEvent) : Prop :=
  List.Chain' (fun a b => a.progress_percent ≤ b.progress_percent) evs
  ∧ List.Chain' (fun a b => a.step_number ≤ b.step_number) evs

/-- Modelled from the spec: the orchestrator operations that change a job's
status and the transition each performs (spec 4.1, 4.4, 4.6): the Runner
dispatches a Queued job, advances on each stage success, completes after the
final stage, fails on a stage error, cancels at a stage boundary (also before
dispatch), and retry resets a Failed or Cancelled job to Queued.  `none`
means the operation does not apply at that status. -/
inductive JobOperation where
  | dispatch
  | stageSuccess
  | completeRun
  | failRun
  | cancelAtBoundary
  | retryOp
deriving DecidableEq, Repr, Fintype

def applyOperation : JobOperation → JobStatus → Option JobStatus
  | .dispatch, .QUEUED => some .PROCESSING
  | .stageSuccess, .PROCESSING => some .PROCESSING
  | .completeRun, .PROCESSING => some .COMPLETED
  | .failRun, .PROCESSING => some .FAILED
  | .cancelAtBoundary, .PROCESSING => some .CANCELLED
  | .cancelAtBoundary, .QUEUED => some .CANCELLED
  | .retryOp, .FAILED => some .QUEUED
  | .retryOp, .CANCELLED => some .QUEUED
  | _, _ => none

/-- The edges of the job state machine of spec 4.1:
`Queued → Processing → {Completed, Failed, Cancelled}` with the implicit
`Processing → Processing` step and `Queued → Cancelled`. -/
def allowedEdges : List (JobStatus × JobStatus) :=
  [(.QUEUED, .PROCESSING), (.PROCESSING, .PROCESSING),
    (.PROCESSING, .COMPLETED), (.PROCESSING, .FAILED),
    (.PROCESSING, .CANCELLED), (.QUEUED, .CANCELLED)]

/-- Modelled from the spec: an acquire/release event on the GPU Admission
Gate (spec 4.2), a counting semaphore with capacity `cap`. -/
inductive GateEvent where
  | acquire
  | release
deriving DecidableEq, Repr

/-- Modelled from the spec: one gate transition — `acquire` is only enabled
(the caller is blocked otherwise) while the in-gate count is below capacity;
`release` decrements a positive count. -/
def gateStep (cap : Nat) (inside : Nat) : GateEvent → Option Nat
  | .acquire => if inside < cap then some (inside + 1) else none
  | .release => if 0 < inside then some (inside - 1) else none

/-- Modelled from the spec: a gate execution — any interleaving of
acquire/release events of concurrently running GPU-bound stage invocations —
threaded through `gateStep`; `none` marks a blocked/impossible schedule. -/
def runGate (cap : Nat) : List GateEvent → Nat → Option Nat
  | [], k => some k
  | e :: evs, k =>
    match gateStep cap k e with
    | some k2 => runGate cap evs k2
    | none => none

/-- Modelled from the spec: how a GPU-bound stage invocation ends (spec 4.2):
success, failure, or cancellation. -/
inductive StageOutcome where
  | success
  | failure
  | cancelled
deriving DecidableEq, Repr

/-- Modelled from the spec: scoped acquisition — a GPU-bound stage invocation
acquires the gate, runs, and releases on every exit path, whether it succeeds,
fails, or is cancelled (spec 4.2, design note in spec 9). -/
def scopedGpuStageEvents : StageOutcome → List GateEvent
  | .success => [.acquire, .release]
  | .failure => [.acquire, .release]
  | .cancelled => [.acquire, .release]

/-- Modelled from the spec: batch-level retry re-submits only the Failed
members, using each job's own retry semantics, and does not touch any other
member (spec 4.6).  The frontend's batch `handleRetry` posts
`/batch/{id}/retry` (batch page, shown when `batch.failed_jobs > 0`); the
backend endpoint is not among the sources. -/
def retryBatch (members : List PipelineJob) : List PipelineJob :=
  members.map (fun j => if j.status = .FAILED then retryJob j else j)

/-- The job detail page offers the Retry action only when the job's status is
`FAILED` (`frontend/src/app/jobs/page.tsx`, `JobDetailPage`:
`{job.status === "FAILED" && (<button onClick={handleRetry} ...>Retry</button>)}`;
`handleRetry` posts `/jobs/{id}/retry`). -/
def showRetryAction (s : JobStatus) : Bool := s == .FAILED

/-- A subtitle segment as manipulated by the subtitle editor page (fields the
editor uses: 1-based `index`, `start`/`end` times in seconds, `text`).  The
`end` field is written `«end»` because `end` is a Lean keyword. -/
structure SubtitleSegment where
  index : Nat
  start : ℚ
  «end» : ℚ
  text : String
deriving DecidableEq, Repr

/-- One undo/redo history entry (editor page:
`interface HistoryEntry { segments: SubtitleSegment[]; description: string }`). -/
structure HistoryEntry where
  segments : List SubtitleSegment
  description : String
deriving DecidableEq, Repr

/-- The editor's segment/history React state (editor page: `segments`,
`history`, `historyIndex`; `historyIndex` starts at `-1`). -/
structure EditorState where
  segments : List SubtitleSegment
  history : List HistoryEntry
  historyIndex : Int
deriving DecidableEq, Repr

/-- The editor's `pushHistory(segs, desc)` (editor page): deep-copies `segs`, truncates the
history to the first `historyIndex + 1` entries
(`prev.slice(0, historyIndex + 1)`) — discarding any redo branch — appends the
new entry, and advances the cursor (`setHistoryIndex(prev => prev + 1)`). -/
def pushHistory (st : EditorState) (segs : List SubtitleSegment)
    (desc : String) : EditorState :=
  { st with
      history := st.history.take (st.historyIndex + 1).toNat ++ [⟨segs, desc⟩],
      historyIndex := st.historyIndex + 1 }

/-- An editing action of the editor: set `segments` to the new value and
record it via `pushHistory` with the same value, as `splitSegment`,
`mergeWithNext`, and `commitSegmentEdit` do. -/
def commitEdit (st : EditorState) (segs : List SubtitleSegment)
    (desc : String) : EditorState :=
  pushHistory { st with segments := segs } segs desc

/-- The editor's `undo()` (editor page): no-op while `historyIndex <= 0`; otherwise steps
the cursor back one entry and restores that entry's segments
(`setSegments(history[newIdx].segments)`; in reachable states the index is
always in range, so the `getD` default is never read). -/
def undo (st : EditorState) : EditorState :=
  if st.historyIndex ≤ 0 then st
  else
    { st with
        historyIndex := st.historyIndex - 1,
        segments :=
          (st.history.getD (st.historyIndex - 1).toNat ⟨[], ""⟩).segments }

/-- The editor's `redo()` (editor page): no-op at the last entry
(`historyIndex >= history.length - 1`); otherwise steps the cursor forward one
entry and restores that entry's segments. -/
def redo (st : EditorState) : EditorState :=
  if (st.history.length : Int) - 1 ≤ st.historyIndex then st
  else
    { st with
        historyIndex := st.historyIndex + 1,
        segments :=
          (st.history.getD (st.historyIndex + 1).toNat ⟨[], ""⟩).segments }

/-- Editor states reachable in a session (editor page): the subtitle load sets
the segments and pushes them as the first entry (`"Loaded original"`), after
which the user commits edits, undoes, and redoes. -/
inductive EditorReachable : EditorState → Prop where
  | load (segs : List SubtitleSegment) :
      EditorReachable (commitEdit ⟨[], [], -1⟩ segs "Loaded original")
  | commit {st : EditorState} (h : EditorReachable st)
      (segs : List SubtitleSegment) (desc : String) :
      EditorReachable (commitEdit st segs desc)
  | undoStep {st : EditorState} (h : EditorReachable st) :
      EditorReachable (undo st)
  | redoStep {st : EditorState} (h : EditorReachable st) :
      EditorReachable (redo st)

/-- The mutable state of a `JobWebSocket` (`frontend/src/lib/websocket.ts`):
whether a socket object is held open (`this.ws !== null`), the `closed` flag,
and whether a reconnect timer is pending (`this.reconnectTimer !== null`). -/
structure WSClient where
  wsOpen : Bool
  closed : Bool
  reconnectPending : Bool
deriving DecidableEq, Repr

/-- The external events a `JobWebSocket` reacts to: a `connect()` call, an
incoming progress message carrying a status, the socket's `onclose`, a
`close()` call, and the 3-second reconnect timer firing. -/
inductive WSEvent where
  | connectCall
  | message (status : JobStatus)
  | socketClosed
  | closeCall
  | reconnectTimerFires
deriving DecidableEq, Repr

/-- The client's `close()` (websocket.ts): set `closed`, clear any pending reconnect timer,
close and drop the socket. -/
def wsClose (_st : WSClient) : WSClient := ⟨false, true, false⟩

/-- One step of the `JobWebSocket` handlers (websocket.ts):
`connect()` returns immediately when `closed` and otherwise opens a new
socket; `onmessage` hands the event to the handler and calls `close()` when
the status is terminal (`["COMPLETED", "FAILED", "CANCELLED"].includes(data.status)`);
`onclose` schedules a reconnect only when the client itself has not been
closed; a firing reconnect timer clears itself and calls `connect()`. -/
def wsStep (st : WSClient) : WSEvent → WSClient
  | .connectCall => if st.closed then st else { st with wsOpen := true }
  | .message s => if s.isTerminal then wsClose st else st
  | .socketClosed =>
      if st.closed then { st with wsOpen := false }
      else { st with wsOpen := false, reconnectPending := true }
  | .closeCall => wsClose st
  | .reconnectTimerFires =>
      if st.closed then { st with reconnectPending := false }
      else { st with reconnectPending := false, wsOpen := true }

/-- A `JobWebSocket` driven by a sequence of events. -/
def wsRun (st : WSClient) : List WSEvent → WSClient
  | [] => st
  | e :: evs => wsRun (wsStep st e) evs

/-- C1: Batch aggregate status is a pure function of the member jobs'
statuses: the batch is Processing exactly when some member is Queued or
Processing, and on an all-terminal member list it is Completed exactly when
all members are Completed, Failed exactly when all members are Failed, and
Partial in every other terminal mix. -/
theorem batch_aggregate_status_pure_function (ms : List JobStatus) (hne : ms ≠ []) :
    (batchAggregateStatus ms = .PROCESSING ↔
      ∃ s ∈ ms, s = .QUEUED ∨ s = .PROCESSING)
    ∧ ((∀ s ∈ ms, s.isTerminal = true) →
        ((batchAggregateStatus ms = .COMPLETED ↔ ∀ s ∈ ms, s = .COMPLETED)
        ∧ (batchAggregateStatus ms = .FAILED ↔ ∀ s ∈ ms, s = .FAILED)
        ∧ (batchAggregateStatus ms = .PARTIAL ↔
            (¬ ∀ s ∈ ms, s = .COMPLETED) ∧ (¬ ∀ s ∈ ms, s = .FAILED)))) := by
  obtain ⟨w, hw⟩ := List.exists_mem_of_ne_nil ms hne
  unfold batchAggregateStatus
  split_ifs with h1 h2 h3
  · simp only [List.any_eq_true, Bool.or_eq_true, beq_iff_eq] at h1
    refine ⟨⟨fun _ => h1, fun _ => rfl⟩, fun hterm => ?_⟩
    obtain ⟨s, hs, hcase⟩ := h1
    have hts := hterm s hs
    rcases hcase with rfl | rfl <;> simp [JobStatus.isTerminal] at hts
  · simp only [List.any_eq_true, Bool.or_eq_true, beq_iff_eq, not_exists,
      not_and, not_or] at h1
    simp only [List.all_eq_true, beq_iff_eq] at h2
    refine ⟨⟨fun h => (nomatch h), fun hex => ?_⟩, fun _ => ?_⟩
    · obtain ⟨s, hs, hc⟩ := hex
      rcases hc with hc | hc
      · exact absurd hc (h1 s hs).1
      · exact absurd hc (h1 s hs).2
    · refine ⟨⟨fun _ => h2, fun _ => rfl⟩, ⟨fun h => (nomatch h), fun hf => ?_⟩,
        ⟨fun h => (nomatch h), fun ⟨hc, _⟩ => absurd h2 hc⟩⟩
      have hcw := h2 w hw
      have hfw := hf w hw
      rw [hcw] at hfw
      cases hfw
  · simp only [List.all_eq_true, beq_iff_eq] at h2 h3
    refine ⟨⟨fun h => (nomatch h), fun hex => ?_⟩, fun _ => ?_⟩
    · obtain ⟨s, hs, hc⟩ := hex
      have := h3 s hs
      rcases hc with hc | hc <;> rw [this] at hc <;> cases hc
    · exact ⟨⟨fun h => (nomatch h), fun hc => absurd hc h2⟩,
        ⟨fun _ => h3, fun _ => rfl⟩,
        ⟨fun h => (nomatch h), fun ⟨_, hf⟩ => absurd h3 hf⟩⟩
  · simp only [List.any_eq_true, Bool.or_eq_true, beq_iff_eq, not_exists,
      not_and, not_or] at h1
    simp only [List.all_eq_true, beq_iff_eq] at h2 h3
    refine ⟨⟨fun h => (nomatch h), fun hex => ?_⟩, fun _ => ?_⟩
    · obtain ⟨s, hs, hc⟩ := hex
      rcases hc with hc | hc
      · exact absurd hc (h1 s hs).1
      · exact absurd hc (h1 s hs).2
    · exact ⟨⟨fun h => (nomatch h), fun hc => absurd hc h2⟩,
        ⟨fun h => (nomatch h), fun hf => absurd hf h3⟩,
        ⟨fun _ => ⟨h2, h3⟩, fun _ => rfl⟩⟩

/-- Witness for C1 at a concrete member list: one Completed and one
Failed member yield a Partial batch. -/
theorem batch_aggregate_status_pure_function_witness :
    ([JobStatus.COMPLETED, JobStatus.FAILED] ≠ [] ∧
      batchAggregateStatus [JobStatus.COMPLETED, JobStatus.FAILED] = .PARTIAL) := by
  refine ⟨by decide, ?_⟩
  have h := batch_aggregate_status_pure_function
    [JobStatus.COMPLETED, JobStatus.FAILED] (by decide)
  have h2 := (h.2 (by decide)).2.2
  exact h2.mpr ⟨by decide, by decide⟩

lemma runLoop_stuck (jobId : String) (behave : Nat → StageResult)
    (flagAt : Nat → Bool) (l : List (Nat × String)) (st : RunnerState)
    (h : st.status ≠ .PROCESSING) : runLoop jobId behave flagAt l st = st := by
  cases l with
  | nil => rfl
  | cons p rest =>
    obtain ⟨i, name⟩ := p
    simp [runLoop, h]

lemma runLoop_all_success (jobId : String) (behave : Nat → StageResult)
    (flagAt : Nat → Bool) :
    ∀ (l : List (Nat × String)) (st : RunnerState),
      st.status = .PROCESSING →
      (∀ p ∈ l, flagAt p.1 = false) →
      (∀ p ∈ l, ∃ out, behave p.1 = .success out) →
      (runLoop jobId behave flagAt l st).status = .PROCESSING
      ∧ (runLoop jobId behave flagAt l st).executed = st.executed ++ l.map Prod.fst
      ∧ (runLoop jobId behave flagAt l st).stepIndex = st.stepIndex + l.length
      ∧ (runLoop jobId behave flagAt l st).totalSteps = st.totalSteps := by
  intro l
  induction l with
  | nil => intro st hst _ _; simp [runLoop, hst]
  | cons p rest ih =>
    intro st hst hflag hbeh
    obtain ⟨i, name⟩ := p
    obtain ⟨out, hout⟩ := hbeh (i, name) (by simp)
    have hf : flagAt i = false := hflag (i, name) (by simp)
    have hrec := ih ⟨.PROCESSING, st.stepIndex + 1, st.totalSteps,
        st.outputs ++ [out], st.executed ++ [i], st.errorMessage,
        st.events ++
          [⟨jobId, .PROCESSING, name, i, st.totalSteps,
              progressPercent st.stepIndex st.totalSteps, none, "stage starting"⟩,
            ⟨jobId, .PROCESSING, name, i, st.totalSteps,
              progressPercent (st.stepIndex + 1) st.totalSteps, none,
              "stage completed"⟩]⟩
      rfl (fun q hq => hflag q (by simp [hq])) (fun q hq => hbeh q (by simp [hq]))
    rw [runLoop]
    simp only [hst, if_true, hf, Bool.false_eq_true, if_false, hout]
    refine ⟨hrec.1, ?_, ?_, hrec.2.2.2⟩
    · rw [hrec.2.1]; simp
    · rw [hrec.2.2.1]; simp; omega

lemma runLoop_executed_mem (jobId : String) (behave : Nat → StageResult)
    (flagAt : Nat → Bool) :
    ∀ (l : List (Nat × String)) (st : RunnerState) (i : Nat),
      i ∈ (runLoop jobId behave flagAt l st).executed →
      i ∈ st.executed ∨ i ∈ l.map Prod.fst := by
  intro l
  induction l with
  | nil => intro st i h; exact Or.inl h
  | cons p rest ih =>
    intro st i h
    obtain ⟨j, name⟩ := p
    by_cases hst : st.status = .PROCESSING
    · rw [runLoop] at h
      simp only [hst, if_true] at h
      by_cases hf : flagAt j
      · simp only [hf, if_true] at h
        exact Or.inl h
      · simp only [hf, Bool.false_eq_true, if_false] at h
        cases hb : behave j with
        | success out =>
          rw [hb] at h
          rcases ih _ i h with hmem | hmem
          · simp only [List.mem_append, List.mem_singleton] at hmem
            rcases hmem with hmem | rfl
            · exact Or.inl hmem
            · exact Or.inr (by simp)
          · exact Or.inr (by simp [hmem])
        | failure msg =>
          rw [hb] at h
          simp only [List.mem_append, List.mem_singleton] at h
          rcases h with hmem | rfl
          · exact Or.inl hmem
          · exact Or.inr (by simp)
    · rw [runLoop_stuck _ _ _ _ _ hst] at h
      exact Or.inl h

lemma finishRun_executed (jobId : String) (st : RunnerState) :
    (finishRun jobId st).executed = st.executed := by
  unfold finishRun
  split_ifs <;> rfl

lemma finishRun_stepIndex (jobId : String) (st : RunnerState) :
    (finishRun jobId st).stepIndex = st.stepIndex := by
  unfold finishRun
  split_ifs <;> rfl

lemma finishRun_status_of_processing (jobId : String) (st : RunnerState)
    (h : st.status = .PROCESSING) : (finishRun jobId st).status = .COMPLETED := by
  unfold finishRun
  simp [h]

lemma resumeIndexList_map_fst (j : PipelineJob) :
    (resumeIndexList j).map Prod.fst
      = List.range' (j.outputs.length + 1) (j.stages.length - j.outputs.length) := by
  unfold resumeIndexList
  apply List.map_fst_zip
  simp

/-- C2: Retrying a Failed job clears its error, resets its status to Queued,
and resumes at the first stage after the accumulated outputs: with outputs
covering stages `1..k` of `n`, every stage the new run invokes has index in
`k+1..n`; when every stage succeeds and no cancellation is requested the run
invokes exactly stages `k+1..n` and completes; and with no accumulated output
the run re-executes from stage 1. -/
theorem retry_resumes_after_last_accumulated_stage
    (jobId : String) (behave : Nat → StageResult) (flagAt : Nat → Bool)
    (j : PipelineJob) (hk : j.outputs.length ≤ j.stages.length) :
    (retryJob j).status = .QUEUED
    ∧ (retryJob j).errorMessage = none
    ∧ (∀ i ∈ (runJob jobId behave flagAt (retryJob j)).executed,
        j.outputs.length + 1 ≤ i ∧ i ≤ j.stages.length)
    ∧ ((∀ i, flagAt i = false) → (∀ i, ∃ out, behave i = .success out) →
        (runJob jobId behave flagAt (retryJob j)).executed
          = List.range' (j.outputs.length + 1) (j.stages.length - j.outputs.length)
        ∧ (runJob jobId behave flagAt (retryJob j)).status = .COMPLETED)
    ∧ (j.outputs = [] → (∀ i, flagAt i = false) →
        (∀ i, ∃ out, behave i = .success out) →
        (runJob jobId behave flagAt (retryJob j)).executed
          = List.range' 1 j.stages.length) := by
  have hretry_stages : (retryJob j).stages = j.stages := rfl
  have hretry_outputs : (retryJob j).outputs = j.outputs := rfl
  have hmapfst := resumeIndexList_map_fst (retryJob j)
  rw [hretry_stages, hretry_outputs] at hmapfst
  refine ⟨rfl, rfl, ?_, ?_, ?_⟩
  · intro i hi
    rw [runJob, finishRun_executed] at hi
    rcases runLoop_executed_mem jobId behave flagAt _ _ i hi with hmem | hmem
    · simp at hmem
    · rw [hmapfst] at hmem
      rw [List.mem_range'_1] at hmem
      omega
  · intro hflag hbeh
    have hall := runLoop_all_success jobId behave flagAt (resumeIndexList (retryJob j))
      ⟨.PROCESSING, (retryJob j).outputs.length, (retryJob j).stages.length,
        (retryJob j).outputs, [], none, []⟩ rfl
      (fun p _ => hflag p.1) (fun p _ => hbeh p.1)
    constructor
    · rw [runJob, finishRun_executed, hall.2.1, hmapfst]
      simp
    · exact finishRun_status_of_processing _ _ hall.1
  · intro hempty hflag hbeh
    have h4 := (runLoop_all_success jobId behave flagAt (resumeIndexList (retryJob j))
      ⟨.PROCESSING, (retryJob j).outputs.length, (retryJob j).stages.length,
        (retryJob j).outputs, [], none, []⟩ rfl
      (fun p _ => hflag p.1) (fun p _ => hbeh p.1)).2.1
    rw [runJob, finishRun_executed, h4, hmapfst, hempty]
    simp

/-- Witness for C2: a job with stages `[extract, transcribe]` whose first
stage output is already accumulated is retried; the new run executes exactly
stage 2 and completes. -/
theorem retry_resumes_after_last_accumulated_stage_witness :
    (["audio"].length ≤ ["extract", "transcribe"].length)
    ∧ (runJob "j1" (fun _ => .success "ok") (fun _ => false)
        (retryJob ⟨.FAILED, ["extract", "transcribe"], ["audio"],
          some "model load failed"⟩)).executed = [2] := by
  refine ⟨by decide, ?_⟩
  have h := retry_resumes_after_last_accumulated_stage "j1"
    (fun _ => .success "ok") (fun _ => false)
    ⟨.FAILED, ["extract", "transcribe"], ["audio"], some "model load failed"⟩
    (by decide)
  have h2 := (h.2.2.2.1 (fun _ => rfl) (fun _ => ⟨"ok", rfl⟩)).1
  rw [h2]
  rfl

lemma finishRun_stuck (jobId : String) (st : RunnerState)
    (h : st.status ≠ .PROCESSING) : finishRun jobId st = st := by
  unfold finishRun
  simp [h]

lemma runLoop_cancel_at (jobId : String) (behave : Nat → StageResult) (k : Nat) :
    ∀ (l : List (Nat × String)) (st : RunnerState),
      st.status = .PROCESSING →
      l.map Prod.fst = List.range' (st.stepIndex + 1) l.length →
      st.stepIndex < k →
      k < st.stepIndex + l.length →
      (∀ i, st.stepIndex < i → i < k → ∃ out, behave i = .success out) →
      ((∀ out, behave k = .success out →
          (runLoop jobId behave (fun i => decide (k < i)) l st).status = .CANCELLED
          ∧ (runLoop jobId behave (fun i => decide (k < i)) l st).executed
              = st.executed ++ List.range' (st.stepIndex + 1) (k - st.stepIndex)
          ∧ (runLoop jobId behave (fun i => decide (k < i)) l st).stepIndex = k)
      ∧ (∀ msg, behave k = .failure msg →
          (runLoop jobId behave (fun i => decide (k < i)) l st).status = .FAILED
          ∧ (runLoop jobId behave (fun i => decide (k < i)) l st).executed
              = st.executed ++ List.range' (st.stepIndex + 1) (k - st.stepIndex)
          ∧ (runLoop jobId behave (fun i => decide (k < i)) l st).errorMessage
              = some msg)) := by
  intro l
  induction l with
  | nil =>
    intro st _ _ hlt hub _
    exfalso
    simp at hub
    omega
  | cons p rest ih =>
    intro st hst hidx hlt hub hpre
    obtain ⟨i, name⟩ := p
    simp only [List.length_cons] at hub
    have hidx' : i = st.stepIndex + 1
        ∧ rest.map Prod.fst = List.range' (st.stepIndex + 2) rest.length := by
      simp only [List.map_cons, List.length_cons, List.range'_succ] at hidx
      have h1 := List.cons.injEq i (rest.map Prod.fst) (st.stepIndex + 1)
        (List.range' (st.stepIndex + 1 + 1) rest.length)
      rw [h1] at hidx
      exact ⟨hidx.1, hidx.2⟩
    obtain ⟨hi, hidx2⟩ := hidx'
    have hflag : (decide (k < i)) = false := by
      subst hi
      simp
      omega
    rcases Nat.lt_or_ge (st.stepIndex + 1) k with hcase | hcase
    · -- stage i = stepIndex + 1 is strictly before stage k: it succeeds
      obtain ⟨out, hout⟩ := hpre i (by omega) (by omega)
      have hrange : List.range' (st.stepIndex + 1) (k - st.stepIndex)
          = i :: List.range' (st.stepIndex + 2) (k - (st.stepIndex + 1)) := by
        subst hi
        rw [show k - st.stepIndex = (k - (st.stepIndex + 1)) + 1 by omega,
          List.range'_succ]
      have hrec := ih ⟨.PROCESSING, st.stepIndex + 1, st.totalSteps,
          st.outputs ++ [out], st.executed ++ [i], st.errorMessage,
          st.events ++
            [⟨jobId, .PROCESSING, name, i, st.totalSteps,
                progressPercent st.stepIndex st.totalSteps, none, "stage starting"⟩,
              ⟨jobId, .PROCESSING, name, i, st.totalSteps,
                progressPercent (st.stepIndex + 1) st.totalSteps, none,
                "stage completed"⟩]⟩
        rfl hidx2 (by show st.stepIndex + 1 < k; omega)
        (by show k < st.stepIndex + 1 + rest.length; omega)
        (fun m hm1 hm2 => hpre m
          (by have h2 : st.stepIndex + 1 < m := hm1; omega) hm2)
      rw [runLoop]
      simp only [hst, if_true, hflag, Bool.false_eq_true, if_false, hout]
      constructor
      · intro out2 hout2
        obtain ⟨h1, h2, h3⟩ := hrec.1 out2 hout2
        refine ⟨h1, ?_, h3⟩
        rw [h2]
        simp only [List.append_assoc, List.singleton_append, hrange]
      · intro msg hmsg
        obtain ⟨h1, h2, h3⟩ := hrec.2 msg hmsg
        refine ⟨h1, ?_, h3⟩
        rw [h2]
        simp only [List.append_assoc, List.singleton_append, hrange]
    · -- stage i = stepIndex + 1 is stage k itself
      have hik : i = k := by omega
      have hrange : List.range' (st.stepIndex + 1) (k - st.stepIndex) = [i] := by
        rw [show k - st.stepIndex = 1 by omega, List.range'_one, hi]
      constructor
      · intro out hout
        rw [← hik] at hout
        rw [runLoop]
        simp only [hst, if_true, hflag, Bool.false_eq_true, if_false, hout]
        -- the next list element is stage k + 1, where the flag is observed
        have hrest : 1 ≤ rest.length := by omega
        cases hr : rest with
        | nil => rw [hr] at hrest; simp at hrest
        | cons q rest2 =>
          obtain ⟨i2, name2⟩ := q
          have hi2 : i2 = st.stepIndex + 2 := by
            rw [hr] at hidx2
            simp only [List.map_cons, List.length_cons, List.range'_succ] at hidx2
            have h1 := List.cons.injEq i2 (rest2.map Prod.fst) (st.stepIndex + 2)
              (List.range' (st.stepIndex + 2 + 1) rest2.length)
            rw [h1] at hidx2
            exact hidx2.1
          have hflag2 : (decide (k < i2)) = true := by
            simp [hi2]
            omega
          rw [runLoop]
          simp only [if_true, hflag2, if_true]
          refine ⟨trivial, ?_, by show st.stepIndex + 1 = k; omega⟩
          simp [hrange]
      · intro msg hmsg
        rw [← hik] at hmsg
        rw [runLoop]
        simp only [hst, if_true, hflag, Bool.false_eq_true, if_false, hmsg]
        exact ⟨trivial, by simp [hrange], trivial⟩

/-- C5: Cancellation is honored only at stage boundaries.  For a fresh run of
`stages` in which the cancellation flag is set while stage `k` executes (so it
is observed at every boundary after stage `k` and at none before), stages
`1..k-1` succeeding: stage `k` itself still runs (to completion or failure),
stage `k+1` is never started, and the job transitions to Cancelled at the
boundary after stage `k` when stage `k` completes (to Failed when stage `k`
fails). -/
theorem cancellation_honored_at_stage_boundaries
    (jobId : String) (behave : Nat → StageResult) (stages : List String)
    (k : Nat) (hk1 : 1 ≤ k) (hkn : k < stages.length)
    (hpre : ∀ i, 0 < i → i < k → ∃ out, behave i = .success out) :
    (∀ out, behave k = .success out →
        (runJob jobId behave (fun i => decide (k < i))
            ⟨.QUEUED, stages, [], none⟩).status = .CANCELLED
        ∧ (runJob jobId behave (fun i => decide (k < i))
            ⟨.QUEUED, stages, [], none⟩).executed = List.range' 1 k
        ∧ (k + 1) ∉ (runJob jobId behave (fun i => decide (k < i))
            ⟨.QUEUED, stages, [], none⟩).executed
        ∧ (runJob jobId behave (fun i => decide (k < i))
            ⟨.QUEUED, stages, [], none⟩).stepIndex = k)
    ∧ (∀ msg, behave k = .failure msg →
        (runJob jobId behave (fun i => decide (k < i))
            ⟨.QUEUED, stages, [], none⟩).status = .FAILED
        ∧ (runJob jobId behave (fun i => decide (k < i))
            ⟨.QUEUED, stages, [], none⟩).executed = List.range' 1 k
        ∧ (k + 1) ∉ (runJob jobId behave (fun i => decide (k < i))
            ⟨.QUEUED, stages, [], none⟩).executed
        ∧ (runJob jobId behave (fun i => decide (k < i))
            ⟨.QUEUED, stages, [], none⟩).errorMessage = some msg) := by
  have hlen : (resumeIndexList ⟨.QUEUED, stages, [], none⟩).length
      = stages.length := by
    simp [resumeIndexList]
  have hmain := runLoop_cancel_at jobId behave k
    (resumeIndexList ⟨.QUEUED, stages, [], none⟩)
    ⟨.PROCESSING, 0, stages.length, [], [], none, []⟩
    rfl
    (by rw [resumeIndexList_map_fst]; simp [hlen])
    hk1
    (by show k < 0 + (resumeIndexList ⟨.QUEUED, stages, [], none⟩).length
        rw [hlen]
        omega)
    hpre
  constructor
  · intro out hout
    obtain ⟨h1, h2, h3⟩ := hmain.1 out hout
    have hrun : runJob jobId behave (fun i => decide (k < i))
        ⟨.QUEUED, stages, [], none⟩
        = runLoop jobId behave (fun i => decide (k < i))
            (resumeIndexList ⟨.QUEUED, stages, [], none⟩)
            ⟨.PROCESSING, 0, stages.length, [], [], none, []⟩ := by
      show finishRun jobId (runLoop jobId behave (fun i => decide (k < i))
          (resumeIndexList ⟨.QUEUED, stages, [], none⟩)
          ⟨.PROCESSING, 0, stages.length, [], [], none, []⟩) = _
      exact finishRun_stuck _ _ (by simp [h1])
    rw [hrun, h1, h2, h3]
    refine ⟨rfl, by simp, ?_, rfl⟩
    simp only [List.nil_append, List.mem_range'_1]
    omega
  · intro msg hmsg
    obtain ⟨h1, h2, h3⟩ := hmain.2 msg hmsg
    have hrun : runJob jobId behave (fun i => decide (k < i))
        ⟨.QUEUED, stages, [], none⟩
        = runLoop jobId behave (fun i => decide (k < i))
            (resumeIndexList ⟨.QUEUED, stages, [], none⟩)
            ⟨.PROCESSING, 0, stages.length, [], [], none, []⟩ := by
      show finishRun jobId (runLoop jobId behave (fun i => decide (k < i))
          (resumeIndexList ⟨.QUEUED, stages, [], none⟩)
          ⟨.PROCESSING, 0, stages.length, [], [], none, []⟩) = _
      exact finishRun_stuck _ _ (by simp [h1])
    rw [hrun, h1, h2, h3]
    refine ⟨rfl, by simp, ?_, rfl⟩
    simp only [List.nil_append, List.mem_range'_1]
    omega

/-- Witness for C5: stages `[extract, transcribe, diarize, buildSubtitles]`
with cancellation requested during stage 2 — the run executes stages 1 and 2,
never starts stage 3, and ends Cancelled. -/
theorem cancellation_honored_at_stage_boundaries_witness :
    (1 ≤ 2 ∧ 2 < (["extract", "transcribe", "diarize", "buildSubtitles"] :
        List String).length)
    ∧ (runJob "j1" (fun _ => .success "ok") (fun i => decide (2 < i))
        ⟨.QUEUED, ["extract", "transcribe", "diarize", "buildSubtitles"],
          [], none⟩).status = .CANCELLED
    ∧ (runJob "j1" (fun _ => .success "ok") (fun i => decide (2 < i))
        ⟨.QUEUED, ["extract", "transcribe", "diarize", "buildSubtitles"],
          [], none⟩).executed = [1, 2] := by
  have h := cancellation_honored_at_stage_boundaries "j1"
    (fun _ => .success "ok") ["extract", "transcribe", "diarize", "buildSubtitles"]
    2 (by decide) (by decide) (fun i _ _ => ⟨"ok", rfl⟩)
  obtain ⟨h1, h2, _⟩ := h.1 "ok" rfl
  exact ⟨⟨by decide, by decide⟩, h1, by rw [h2]; rfl⟩

lemma progressPercent_mono {a b t : Nat} (h : a ≤ b) :
    progressPercent a t ≤ progressPercent b t := by
  unfold progressPercent
  have hab : ((a : ℚ)) ≤ (b : ℚ) := by exact_mod_cast h
  have hdiv := div_le_div_of_nonneg_right hab (by positivity : (0 : ℚ) ≤ (t : ℚ))
  exact mul_le_mul_of_nonneg_right hdiv (by norm_num)

lemma chain'_append_singleton {α : Type} {R : α → α → Prop} {l : List α} {a : α}
    (hc : List.Chain' R l) (ha : ∀ x ∈ l, R x a) : List.Chain' R (l ++ [a]) := by
  rw [List.chain'_append]
  refine ⟨hc, List.chain'_singleton a, ?_⟩
  intro x hx y hy
  simp only [List.head?_cons, Option.mem_def, Option.some.injEq] at hy
  subst hy
  obtain ⟨hne, hxl⟩ := List.mem_getLast?_eq_getLast hx
  rw [hxl]
  exact ha _ (List.getLast_mem hne)

lemma chain'_append_pair {α : Type} {R : α → α → Prop} {l : List α} {a b : α}
    (hc : List.Chain' R l) (ha : ∀ x ∈ l, R x a) (hab : R a b) :
    List.Chain' R (l ++ [a, b]) := by
  rw [List.chain'_append]
  refine ⟨hc, List.chain'_pair.mpr hab, ?_⟩
  intro x hx y hy
  simp only [List.head?_cons, Option.mem_def, Option.some.injEq] at hy
  subst hy
  obtain ⟨hne, hxl⟩ := List.mem_getLast?_eq_getLast hx
  rw [hxl]
  exact ha _ (List.getLast_mem hne)

lemma consecutive_head {i : Nat} {name : String} {rest : List (Nat × String)}
    {s : Nat}
    (hidx : ((i, name) :: rest).map Prod.fst
      = List.range' (s + 1) ((i, name) :: rest).length) :
    i = s + 1 ∧ rest.map Prod.fst = List.range' (s + 2) rest.length := by
  simp only [List.map_cons, List.length_cons, List.range'_succ] at hidx
  have h1 := List.cons.injEq i (rest.map Prod.fst) (s + 1)
    (List.range' (s + 1 + 1) rest.length)
  rw [h1] at hidx
  exact ⟨hidx.1, hidx.2⟩

lemma runLoop_events_invariant (jobId : String) (behave : Nat → StageResult)
    (flagAt : Nat → Bool) :
    ∀ (l : List (Nat × String)) (st : RunnerState),
      st.status = .PROCESSING →
      st.stepIndex + l.length ≤ st.totalSteps →
      l.map Prod.fst = List.range' (st.stepIndex + 1) l.length →
      eventsMonotone st.events →
      (∀ e ∈ st.events,
        e.progress_percent ≤ progressPercent st.stepIndex st.totalSteps) →
      (∀ e ∈ st.events, e.step_number ≤ st.stepIndex) →
      (∀ e ∈ st.events, e.total_steps = st.totalSteps) →
      (runLoop jobId behave flagAt l st).totalSteps = st.totalSteps
      ∧ (runLoop jobId behave flagAt l st).stepIndex ≤ st.totalSteps
      ∧ eventsMonotone (runLoop jobId behave flagAt l st).events
      ∧ (∀ e ∈ (runLoop jobId behave flagAt l st).events,
          e.step_number ≤ st.totalSteps)
      ∧ (∀ e ∈ (runLoop jobId behave flagAt l st).events,
          e.total_steps = st.totalSteps)
      ∧ ((runLoop jobId behave flagAt l st).status = .PROCESSING →
          (∀ e ∈ (runLoop jobId behave flagAt l st).events,
            e.progress_percent ≤ progressPercent
              (runLoop jobId behave flagAt l st).stepIndex st.totalSteps)
          ∧ (∀ e ∈ (runLoop jobId behave flagAt l st).events,
            e.step_number ≤ (runLoop jobId behave flagAt l st).stepIndex)) := by
  intro l
  induction l with
  | nil =>
    intro st hst hlen _ hmono hpct hstep htot
    refine ⟨rfl, by simpa using hlen, hmono, ?_, htot, fun _ => ⟨hpct, hstep⟩⟩
    intro e he
    exact le_trans (hstep e he) (by simpa using hlen)
  | cons p rest ih =>
    intro st hst hlen hidx hmono hpct hstep htot
    obtain ⟨i, name⟩ := p
    simp only [List.length_cons] at hlen
    obtain ⟨hi, hidx2⟩ := consecutive_head hidx
    rw [runLoop]
    by_cases hf : flagAt i
    · simp only [hst, if_true, hf]
      refine ⟨trivial, by omega, ⟨?_, ?_⟩, ?_, ?_, ?_⟩
      · exact chain'_append_singleton hmono.1 (fun x hx => hpct x hx)
      · exact chain'_append_singleton hmono.2 (fun x hx => hstep x hx)
      · intro e he
        simp only [List.mem_append, List.mem_cons, List.not_mem_nil, or_false] at he
        rcases he with he | rfl
        · exact le_trans (hstep e he) (by omega)
        · show st.stepIndex ≤ st.totalSteps
          omega
      · intro e he
        simp only [List.mem_append, List.mem_cons, List.not_mem_nil, or_false] at he
        rcases he with he | rfl
        · exact htot e he
        · rfl
      · intro hcontra
        exact absurd hcontra (by simp)
    · simp only [hst, if_true, hf, Bool.false_eq_true, if_false]
      cases hb : behave i with
      | success out =>
        have hpcts : progressPercent st.stepIndex st.totalSteps
            ≤ progressPercent (st.stepIndex + 1) st.totalSteps :=
          progressPercent_mono (Nat.le_succ _)
        have hrec := ih ⟨.PROCESSING, st.stepIndex + 1, st.totalSteps,
            st.outputs ++ [out], st.executed ++ [i], st.errorMessage,
            st.events ++
              [⟨jobId, .PROCESSING, name, i, st.totalSteps,
                  progressPercent st.stepIndex st.totalSteps, none,
                  "stage starting"⟩,
                ⟨jobId, .PROCESSING, name, i, st.totalSteps,
                  progressPercent (st.stepIndex + 1) st.totalSteps, none,
                  "stage completed"⟩]⟩
          rfl
          (by show st.stepIndex + 1 + rest.length ≤ st.totalSteps; omega)
          hidx2
          ⟨chain'_append_pair hmono.1 (fun x hx => hpct x hx) hpcts,
            chain'_append_pair hmono.2
              (fun x hx => le_trans (hstep x hx)
                (by show st.stepIndex ≤ i; omega)) (le_refl i)⟩
          (by
            intro e he
            simp only [List.mem_append, List.mem_cons, List.not_mem_nil, or_false] at he
            rcases he with he | rfl | rfl
            · exact le_trans (hpct e he) hpcts
            · exact le_trans (le_refl _) hpcts
            · exact le_refl _)
          (by
            intro e he
            simp only [List.mem_append, List.mem_cons, List.not_mem_nil, or_false] at he
            rcases he with he | rfl | rfl
            · exact le_trans (hstep e he) (by show st.stepIndex ≤ st.stepIndex + 1; omega)
            · show i ≤ st.stepIndex + 1; omega
            · show i ≤ st.stepIndex + 1; omega)
          (by
            intro e he
            simp only [List.mem_append, List.mem_cons, List.not_mem_nil, or_false] at he
            rcases he with he | rfl | rfl
            · exact htot e he
            · rfl
            · rfl)
        exact hrec
      | failure msg =>
        refine ⟨rfl, ?_, ⟨?_, ?_⟩, ?_, ?_, ?_⟩
        · show st.stepIndex ≤ st.totalSteps
          omega
        · show List.Chain' (fun a b => a.progress_percent ≤ b.progress_percent)
            (st.events ++
              [⟨jobId, .PROCESSING, name, i, st.totalSteps,
                  progressPercent st.stepIndex st.totalSteps, none,
                  "stage starting"⟩,
                ⟨jobId, .FAILED, name, i, st.totalSteps,
                  progressPercent st.stepIndex st.totalSteps, none, msg⟩])
          exact chain'_append_pair hmono.1 (fun x hx => hpct x hx) (le_refl _)
        · show List.Chain' (fun a b => a.step_number ≤ b.step_number)
            (st.events ++
              [⟨jobId, .PROCESSING, name, i, st.totalSteps,
                  progressPercent st.stepIndex st.totalSteps, none,
                  "stage starting"⟩,
                ⟨jobId, .FAILED, name, i, st.totalSteps,
                  progressPercent st.stepIndex st.totalSteps, none, msg⟩])
          exact chain'_append_pair hmono.2
            (fun x hx => le_trans (hstep x hx)
              (by show st.stepIndex ≤ i; omega)) (le_refl i)
        · intro e he
          have he2 : e ∈ st.events ++
              [⟨jobId, .PROCESSING, name, i, st.totalSteps,
                  progressPercent st.stepIndex st.totalSteps, none,
                  "stage starting"⟩,
                ⟨jobId, .FAILED, name, i, st.totalSteps,
                  progressPercent st.stepIndex st.totalSteps, none, msg⟩] := he
          simp only [List.mem_append, List.mem_cons, List.not_mem_nil,
            or_false] at he2
          rcases he2 with he2 | rfl | rfl
          · exact le_trans (hstep e he2) (by omega)
          · show i ≤ st.totalSteps; omega
          · show i ≤ st.totalSteps; omega
        · intro e he
          have he2 : e ∈ st.events ++
              [⟨jobId, .PROCESSING, name, i, st.totalSteps,
                  progressPercent st.stepIndex st.totalSteps, none,
                  "stage starting"⟩,
                ⟨jobId, .FAILED, name, i, st.totalSteps,
                  progressPercent st.stepIndex st.totalSteps, none, msg⟩] := he
          simp only [List.mem_append, List.mem_cons, List.not_mem_nil,
            or_false] at he2
          rcases he2 with he2 | rfl | rfl
          · exact htot e he2
          · rfl
          · rfl
        · intro hcontra
          have hcontra2 : JobStatus.FAILED = JobStatus.PROCESSING := hcontra
          cases hcontra2

lemma finishRun_events (jobId : String) (st : RunnerState) (N : Nat)
    (htot : st.totalSteps = N)
    (hstep : st.stepIndex ≤ N)
    (hmono : eventsMonotone st.events)
    (hsnb : ∀ e ∈ st.events, e.step_number ≤ N)
    (htots : ∀ e ∈ st.events, e.total_steps = N)
    (hproc : st.status = .PROCESSING →
      (∀ e ∈ st.events, e.progress_percent ≤ progressPercent st.stepIndex N)
      ∧ (∀ e ∈ st.events, e.step_number ≤ st.stepIndex)) :
    eventsMonotone (finishRun jobId st).events
    ∧ (∀ e ∈ (finishRun jobId st).events, e.step_number ≤ N)
    ∧ (∀ e ∈ (finishRun jobId st).events, e.total_steps = N) := by
  subst htot
  unfold finishRun
  split_ifs with h
  · obtain ⟨hpctb, hstepb⟩ := hproc h
    refine ⟨⟨?_, ?_⟩, ?_, ?_⟩
    · exact chain'_append_singleton hmono.1 (fun x hx => hpctb x hx)
    · exact chain'_append_singleton hmono.2 (fun x hx => hstepb x hx)
    · intro e he
      simp only [List.mem_append, List.mem_cons, List.not_mem_nil,
        or_false] at he
      rcases he with he | rfl
      · exact hsnb e he
      · exact hstep
    · intro e he
      simp only [List.mem_append, List.mem_cons, List.not_mem_nil,
        or_false] at he
      rcases he with he | rfl
      · exact htots e he
      · rfl
  · exact ⟨hmono, hsnb, htots⟩

/-- C6: Within a single run the published progress percentage is
non-decreasing, the published step index is non-decreasing and never exceeds
the configured total step count, and every event carries the configured total;
this holds for every stage behaviour and every cancellation pattern the run
encounters. -/
theorem progress_monotone_and_step_bounded
    (jobId : String) (behave : Nat → StageResult) (flagAt : Nat → Bool)
    (j : PipelineJob) (hk : j.outputs.length ≤ j.stages.length) :
    List.Chain' (fun a b => a.progress_percent ≤ b.progress_percent)
      (runJob jobId behave flagAt j).events
    ∧ List.Chain' (fun a b => a.step_number ≤ b.step_number)
      (runJob jobId behave flagAt j).events
    ∧ (∀ e ∈ (runJob jobId behave flagAt j).events,
        e.step_number ≤ j.stages.length)
    ∧ (∀ e ∈ (runJob jobId behave flagAt j).events,
        e.total_steps = j.stages.length) := by
  have hlen : (resumeIndexList j).length
      = j.stages.length - j.outputs.length := by
    simp [resumeIndexList]
  have hinv := runLoop_events_invariant jobId behave flagAt (resumeIndexList j)
    ⟨.PROCESSING, j.outputs.length, j.stages.length, j.outputs, [], none, []⟩
    rfl
    (by show j.outputs.length + (resumeIndexList j).length ≤ j.stages.length
        rw [hlen]
        omega)
    (by show (resumeIndexList j).map Prod.fst
          = List.range' (j.outputs.length + 1) (resumeIndexList j).length
        rw [resumeIndexList_map_fst, hlen])
    ⟨List.chain'_nil, List.chain'_nil⟩
    (by intro e he; exact absurd he (List.not_mem_nil e))
    (by intro e he; exact absurd he (List.not_mem_nil e))
    (by intro e he; exact absurd he (List.not_mem_nil e))
  have hfin := finishRun_events jobId
    (runLoop jobId behave flagAt (resumeIndexList j)
      ⟨.PROCESSING, j.outputs.length, j.stages.length, j.outputs, [], none, []⟩)
    j.stages.length hinv.1 hinv.2.1 hinv.2.2.1 hinv.2.2.2.1 hinv.2.2.2.2.1
    hinv.2.2.2.2.2
  exact ⟨hfin.1.1, hfin.1.2, hfin.2.1, hfin.2.2⟩

/-- Witness for C6 at a concrete two-stage job run from scratch with all
stages succeeding. -/
theorem progress_monotone_and_step_bounded_witness :
    ((([] : List String)).length ≤ (["extract", "transcribe"] :
        List String).length)
    ∧ List.Chain' (fun a b => a.progress_percent ≤ b.progress_percent)
        (runJob "j1" (fun _ => .success "ok") (fun _ => false)
          ⟨.QUEUED, ["extract", "transcribe"], [], none⟩).events
    ∧ (∀ e ∈ (runJob "j1" (fun _ => .success "ok") (fun _ => false)
          ⟨.QUEUED, ["extract", "transcribe"], [], none⟩).events,
        e.step_number ≤ (["extract", "transcribe"] : List String).length) := by
  have h := progress_monotone_and_step_bounded "j1" (fun _ => .success "ok")
    (fun _ => false) ⟨.QUEUED, ["extract", "transcribe"], [], none⟩
    (by decide)
  exact ⟨by decide, h.1, h.2.2.1⟩

/-- Counterexample to C3 as stated: the retry operation (spec 4.1) is an
operation of the system, and it moves a Failed — terminal — job back to
Queued, a transition outside the state machine's edges. -/
theorem job_status_transitions_counterexample :
    applyOperation .retryOp .FAILED = some .QUEUED
    ∧ JobStatus.FAILED.isTerminal = true
    ∧ (JobStatus.FAILED, JobStatus.QUEUED) ∉ allowedEdges := by decide

/-- C3 (amended): every operation other than retry only performs transitions
of the state machine `Queued → Processing → {Completed, Failed, Cancelled}`
(plus `Queued → Cancelled`), and never leaves a terminal status; retry is the
sole exception, taking exactly Failed or Cancelled back to Queued. -/
theorem job_status_transitions_amended :
    (∀ op s t, op ≠ JobOperation.retryOp → applyOperation op s = some t →
      (s, t) ∈ allowedEdges ∧ s.isTerminal = false)
    ∧ (∀ s t, applyOperation .retryOp s = some t →
        (s = .FAILED ∨ s = .CANCELLED) ∧ t = .QUEUED) := by decide

/-- Witness for the amended C3 at the dispatch edge and the retry reset. -/
theorem job_status_transitions_amended_witness :
    ((JobStatus.QUEUED, JobStatus.PROCESSING) ∈ allowedEdges
      ∧ JobStatus.QUEUED.isTerminal = false)
    ∧ ((JobStatus.FAILED = JobStatus.FAILED
        ∨ JobStatus.FAILED = JobStatus.CANCELLED)
      ∧ JobStatus.QUEUED = JobStatus.QUEUED) :=
  ⟨job_status_transitions_amended.1 .dispatch .QUEUED .PROCESSING
      (by decide) (by decide),
    job_status_transitions_amended.2 .FAILED .QUEUED (by decide)⟩

lemma runGate_le (cap : Nat) :
    ∀ (tr : List GateEvent) (k m : Nat), k ≤ cap →
      runGate cap tr k = some m → m ≤ cap := by
  intro tr
  induction tr with
  | nil =>
    intro k m hk h
    simp only [runGate, Option.some.injEq] at h
    omega
  | cons e evs ih =>
    intro k m hk h
    cases e with
    | acquire =>
      rw [runGate] at h
      by_cases hlt : k < cap
      · simp only [gateStep, hlt, if_true] at h
        exact ih (k + 1) m (by omega) h
      · simp only [gateStep, hlt, if_false] at h
        exact Option.noConfusion h
    | release =>
      rw [runGate] at h
      by_cases hpos : 0 < k
      · simp only [gateStep, hpos, if_true] at h
        exact ih (k - 1) m (by omega) h
      · simp only [gateStep, hpos, if_false] at h
        exact Option.noConfusion h

/-- C4: With capacity `cap`, at every point of every gate execution — every
prefix of every admissible interleaving of acquires and releases, however
many jobs contend — the number of invocations inside the gate is at most
`cap`; and a scoped GPU stage invocation releases on every exit path
(success, failure, cancellation), returning the gate to its entry count, so
capacity is never permanently lost. -/
theorem gpu_gate_capacity_invariant (cap : Nat) (tr : List GateEvent) :
    (∀ p q m, tr = p ++ q → runGate cap p 0 = some m → m ≤ cap)
    ∧ (∀ o k, k < cap → runGate cap (scopedGpuStageEvents o) k = some k) := by
  constructor
  · intro p q m _ h
    exact runGate_le cap p 0 m (Nat.zero_le cap) h
  · intro o k hk
    cases o <;> simp [scopedGpuStageEvents, runGate, gateStep, hk]

/-- Witness for C4: capacity 1, a trace of three scoped invocations; every
prefix count stays at most 1, and a cancelled invocation returns the gate to
empty. -/
theorem gpu_gate_capacity_invariant_witness :
    ([GateEvent.acquire] ++ [GateEvent.release, GateEvent.acquire,
        GateEvent.release]
      = [GateEvent.acquire] ++ [GateEvent.release, GateEvent.acquire,
        GateEvent.release]
    ∧ runGate 1 [GateEvent.acquire] 0 = some 1 ∧ 1 ≤ 1)
    ∧ (0 < 1 ∧ runGate 1 (scopedGpuStageEvents .cancelled) 0 = some 0) := by
  have h := gpu_gate_capacity_invariant 1
    ([GateEvent.acquire] ++ [GateEvent.release, GateEvent.acquire,
      GateEvent.release])
  refine ⟨⟨rfl, by decide, ?_⟩, by decide, h.2 .cancelled 0 (by decide)⟩
  exact h.1 [GateEvent.acquire]
    [GateEvent.release, GateEvent.acquire, GateEvent.release] 1 rfl (by decide)

/-- C7: Batch-level retry re-submits exactly the Failed members: it preserves
the member list's length, replaces each Failed member by its per-job retry
(status Queued, error cleared, outputs kept), and leaves every non-Failed
member — in particular every Completed and every Cancelled member —
unchanged. -/
theorem batch_retry_exactly_failed_members (ms : List PipelineJob) (i : Nat)
    (hi : i < ms.length) :
    (retryBatch ms).length = ms.length
    ∧ ∀ (hlen : i < (retryBatch ms).length),
        ((ms.get ⟨i, hi⟩).status = .FAILED →
          (retryBatch ms).get ⟨i, hlen⟩ = retryJob (ms.get ⟨i, hi⟩))
        ∧ ((ms.get ⟨i, hi⟩).status ≠ .FAILED →
          (retryBatch ms).get ⟨i, hlen⟩ = ms.get ⟨i, hi⟩)
        ∧ ((ms.get ⟨i, hi⟩).status = .COMPLETED →
          (retryBatch ms).get ⟨i, hlen⟩ = ms.get ⟨i, hi⟩)
        ∧ ((ms.get ⟨i, hi⟩).status = .CANCELLED →
          (retryBatch ms).get ⟨i, hlen⟩ = ms.get ⟨i, hi⟩) := by
  have hlen0 : (retryBatch ms).length = ms.length := by
    simp [retryBatch]
  refine ⟨hlen0, fun hl => ⟨?_, ?_, ?_, ?_⟩⟩
  · intro hf
    rw [List.get_eq_getElem] at hf
    simp only [retryBatch, List.get_eq_getElem, List.getElem_map]
    rw [if_pos hf]
  · intro hnf
    rw [List.get_eq_getElem] at hnf
    simp only [retryBatch, List.get_eq_getElem, List.getElem_map]
    rw [if_neg hnf]
  · intro hc
    simp only [retryBatch, List.get_eq_getElem, List.getElem_map]
    rw [if_neg (by rw [List.get_eq_getElem] at hc; rw [hc]; decide)]
  · intro hc
    simp only [retryBatch, List.get_eq_getElem, List.getElem_map]
    rw [if_neg (by rw [List.get_eq_getElem] at hc; rw [hc]; decide)]

/-- Witness for C7: a batch with one Failed and one Completed member — the
Failed member is reset by retry, position 0 shown. -/
theorem batch_retry_exactly_failed_members_witness :
    (0 < ([⟨.FAILED, ["s"], [], some "boom"⟩,
        ⟨.COMPLETED, ["s"], ["out"], none⟩] : List PipelineJob).length)
    ∧ retryBatch [⟨.FAILED, ["s"], [], some "boom"⟩,
        ⟨.COMPLETED, ["s"], ["out"], none⟩]
      = [⟨.QUEUED, ["s"], [], none⟩, ⟨.COMPLETED, ["s"], ["out"], none⟩] := by
  have h := batch_retry_exactly_failed_members
    [⟨.FAILED, ["s"], [], some "boom"⟩, ⟨.COMPLETED, ["s"], ["out"], none⟩]
    0 (by decide)
  have h1 := (h.2 (by rw [h.1]; decide)).1 (by decide)
  refine ⟨by decide, ?_⟩
  rw [show ([⟨.QUEUED, ["s"], [], none⟩,
      ⟨.COMPLETED, ["s"], ["out"], none⟩] : List PipelineJob)
    = [retryJob ⟨.FAILED, ["s"], [], some "boom"⟩,
      ⟨.COMPLETED, ["s"], ["out"], none⟩] from rfl]
  rfl

/-- Counterexample to C8 as stated: for a Cancelled job the retry action is
not available — the job page renders the Retry control only for Failed
jobs. -/
theorem retry_for_cancelled_counterexample :
    showRetryAction .CANCELLED = false := by decide

/-- C8 (amended): the retry action is offered exactly for Failed jobs:
Completed jobs are not retryable, and Cancelled jobs are not offered retry
either. -/
theorem retry_offered_only_for_failed :
    (∀ s : JobStatus, showRetryAction s = true ↔ s = .FAILED)
    ∧ showRetryAction .COMPLETED = false
    ∧ showRetryAction .CANCELLED = false := by decide

lemma editor_invariant {st : EditorState} (h : EditorReachable st) :
    0 ≤ st.historyIndex
    ∧ st.historyIndex < (st.history.length : Int)
    ∧ (st.history.getD st.historyIndex.toNat ⟨[], ""⟩).segments
        = st.segments := by
  induction h with
  | load segs =>
    refine ⟨?_, ?_, ?_⟩ <;> simp [commitEdit, pushHistory, List.getD]
  | @commit st0 h segs desc ih =>
    obtain ⟨h0, h1, _⟩ := ih
    have htk : (st0.history.take (st0.historyIndex + 1).toNat).length
        = (st0.historyIndex + 1).toNat := by
      rw [List.length_take]
      omega
    refine ⟨?_, ?_, ?_⟩
    · show 0 ≤ st0.historyIndex + 1
      omega
    · show st0.historyIndex + 1
        < ((st0.history.take (st0.historyIndex + 1).toNat ++
            [(⟨segs, desc⟩ : HistoryEntry)]).length : Int)
      rw [List.length_append, htk]
      simp only [List.length_singleton]
      omega
    · show ((st0.history.take (st0.historyIndex + 1).toNat ++
          [(⟨segs, desc⟩ : HistoryEntry)]).getD
            (st0.historyIndex + 1).toNat ⟨[], ""⟩).segments = segs
      rw [List.getD_eq_getElem?_getD, List.getElem?_append_right htk.le, htk]
      simp
  | @undoStep st0 h ih =>
    obtain ⟨h0, h1, h2⟩ := ih
    unfold undo
    split_ifs with hcase
    · exact ⟨h0, h1, h2⟩
    · refine ⟨by show 0 ≤ st0.historyIndex - 1; omega,
        by show st0.historyIndex - 1 < (st0.history.length : Int); omega, rfl⟩
  | @redoStep st0 h ih =>
    obtain ⟨h0, h1, h2⟩ := ih
    unfold redo
    split_ifs with hcase
    · exact ⟨h0, h1, h2⟩
    · refine ⟨by show 0 ≤ st0.historyIndex + 1; omega,
        by show st0.historyIndex + 1 < (st0.history.length : Int); omega, rfl⟩

/-- C9: The editor's undo/redo is a linear history with a branch-discarding
redo stack.  In every reachable editor state: an edit truncates the history to
the cursor and appends the new entry at cursor + 1; undo is a no-op at
cursor 0 and otherwise steps the cursor back and restores that entry's
segments; redo is a no-op at the last entry and otherwise steps forward and
restores that entry's segments; and undo immediately after an edit restores
the segments to their value before that edit. -/
theorem editor_history_linear_branch_discarding {st : EditorState}
    (h : EditorReachable st) (segs : List SubtitleSegment) (desc : String) :
    ((commitEdit st segs desc).history
        = st.history.take (st.historyIndex + 1).toNat ++ [⟨segs, desc⟩]
      ∧ (commitEdit st segs desc).historyIndex = st.historyIndex + 1
      ∧ (commitEdit st segs desc).segments = segs)
    ∧ (st.historyIndex = 0 → undo st = st)
    ∧ (0 < st.historyIndex →
        (undo st).historyIndex = st.historyIndex - 1
        ∧ (undo st).history = st.history
        ∧ (undo st).segments
            = (st.history.getD (st.historyIndex - 1).toNat ⟨[], ""⟩).segments)
    ∧ (st.historyIndex = (st.history.length : Int) - 1 → redo st = st)
    ∧ (st.historyIndex < (st.history.length : Int) - 1 →
        (redo st).historyIndex = st.historyIndex + 1
        ∧ (redo st).history = st.history
        ∧ (redo st).segments
            = (st.history.getD (st.historyIndex + 1).toNat ⟨[], ""⟩).segments)
    ∧ (undo (commitEdit st segs desc)).segments = st.segments := by
  obtain ⟨h0, h1, h2⟩ := editor_invariant h
  refine ⟨⟨rfl, rfl, rfl⟩, ?_, ?_, ?_, ?_, ?_⟩
  · intro hz
    unfold undo
    rw [if_pos (by omega)]
  · intro hpos
    unfold undo
    rw [if_neg (by omega)]
    exact ⟨rfl, rfl, rfl⟩
  · intro hlast
    unfold redo
    rw [if_pos (by omega)]
  · intro hlt
    unfold redo
    rw [if_neg (by omega)]
    exact ⟨rfl, rfl, rfl⟩
  · unfold undo
    rw [if_neg (by show ¬(st.historyIndex + 1 ≤ 0); omega)]
    show ((st.history.take (st.historyIndex + 1).toNat
        ++ [(⟨segs, desc⟩ : HistoryEntry)]).getD
          (st.historyIndex + 1 - 1).toNat ⟨[], ""⟩).segments = st.segments
    rw [Int.add_sub_cancel]
    have htk : (st.history.take (st.historyIndex + 1).toNat).length
        = (st.historyIndex + 1).toNat := by
      rw [List.length_take]
      omega
    rw [List.getD_eq_getElem?_getD,
      List.getElem?_append_left (by rw [htk]; omega),
      List.getElem?_take_of_lt (by omega),
      ← List.getD_eq_getElem?_getD]
    exact h2

/-- Witness for C9 at a loaded one-segment state followed by an edit: undo
right after the edit restores the loaded segments. -/
theorem editor_history_linear_branch_discarding_witness :
    (undo (commitEdit
        (commitEdit ⟨[], [], -1⟩ [⟨1, 0, 1, "hi"⟩] "Loaded original")
        [⟨1, 0, 1, "hello"⟩] "Edit segment 1")).segments = [⟨1, 0, 1, "hi"⟩]
    ∧ (commitEdit
        (commitEdit ⟨[], [], -1⟩ [⟨1, 0, 1, "hi"⟩] "Loaded original")
        [⟨1, 0, 1, "hello"⟩] "Edit segment 1").historyIndex = 1 := by
  have h := editor_history_linear_branch_discarding
    (EditorReachable.load [⟨1, 0, 1, "hi"⟩]) [⟨1, 0, 1, "hello"⟩]
    "Edit segment 1"
  exact ⟨h.2.2.2.2.2, rfl⟩

lemma wsRun_closed_fixpoint :
    ∀ (evs : List WSEvent), wsRun ⟨false, true, false⟩ evs
      = ⟨false, true, false⟩ := by
  intro evs
  induction evs with
  | nil => rfl
  | cons e evs ih =>
    rw [wsRun]
    have hstep : wsStep ⟨false, true, false⟩ e = ⟨false, true, false⟩ := by
      cases e with
      | connectCall => rfl
      | message s =>
        show (if s.isTerminal then wsClose ⟨false, true, false⟩
          else ⟨false, true, false⟩) = ⟨false, true, false⟩
        split_ifs <;> rfl
      | socketClosed => rfl
      | closeCall => rfl
      | reconnectTimerFires => rfl
    rw [hstep]
    exact ih

/-- C10: Receiving a progress event with a terminal status (COMPLETED,
FAILED, CANCELLED) runs `close()`, leaving the client in the closed state
(no socket, `closed` set, no reconnect timer); the closed state is permanent —
under every subsequent event sequence, including `connect()` calls and timer
fires, no socket is ever opened and no reconnect is ever scheduled; and a
reconnect becomes pending only through the socket's `onclose` while the
client itself is not closed. -/
theorem websocket_terminal_close_permanent (st st2 : WSClient) (s : JobStatus)
    (hterm : s.isTerminal = true) (evs : List WSEvent) (e : WSEvent) :
    wsStep st (.message s) = ⟨false, true, false⟩
    ∧ wsRun ⟨false, true, false⟩ evs = ⟨false, true, false⟩
    ∧ wsRun (wsStep st (.message s)) evs = ⟨false, true, false⟩
    ∧ ((wsStep st2 e).reconnectPending = true →
        st2.reconnectPending = true
        ∨ (e = .socketClosed ∧ st2.closed = false)) := by
  have hstep : wsStep st (.message s) = ⟨false, true, false⟩ := by
    show (if s.isTerminal then wsClose st else st) = ⟨false, true, false⟩
    rw [if_pos hterm]
    rfl
  refine ⟨hstep, wsRun_closed_fixpoint evs, ?_, ?_⟩
  · rw [hstep]
    exact wsRun_closed_fixpoint evs
  · intro hpend
    cases e with
    | connectCall =>
      left
      by_cases hc : st2.closed
      · simp only [wsStep, hc, if_true] at hpend
        exact hpend
      · simp only [wsStep, hc, Bool.false_eq_true, if_false] at hpend
        exact hpend
    | message s2 =>
      left
      by_cases ht : s2.isTerminal
      · simp only [wsStep, ht, if_true, wsClose] at hpend
        cases hpend
      · simp only [wsStep, ht, Bool.false_eq_true, if_false] at hpend
        exact hpend
    | socketClosed =>
      by_cases hc : st2.closed
      · left
        simp only [wsStep, hc, if_true] at hpend
        exact hpend
      · right
        exact ⟨rfl, by revert hc; cases st2.closed <;> simp⟩
    | closeCall =>
      simp only [wsStep, wsClose] at hpend
      cases hpend
    | reconnectTimerFires =>
      by_cases hc : st2.closed
      · simp only [wsStep, hc, if_true] at hpend
        cases hpend
      · simp only [wsStep, hc, Bool.false_eq_true, if_false] at hpend

/-- Witness for C10: a COMPLETED message closes the client, and a later
connect call plus timer fire leave it closed with no socket and no timer. -/
theorem websocket_terminal_close_permanent_witness :
    JobStatus.COMPLETED.isTerminal = true
    ∧ wsRun (wsStep ⟨true, false, false⟩ (.message .COMPLETED))
        [.connectCall, .reconnectTimerFires] = ⟨false, true, false⟩ := by
  have h := websocket_terminal_close_permanent ⟨true, false, false⟩
    ⟨true, false, false⟩ .COMPLETED (by decide)
    [.connectCall, .reconnectTimerFires] .connectCall
  exact ⟨by decide, h.2.2.1⟩
